import Mathlib

/-!
Verification of the RedisPubsub class (pubsub event bus, JSON cache facade,
and distributed lock over a redis store).  JavaScript strings are modelled
as lists of characters; the external store clients are modelled as explicit
state passing with injectable store faults.
-/

set_option maxHeartbeats 1000000

namespace PubsubRedis

/-- JS strings are modelled as lists of characters. -/
abbrev Str := List Char

/-! ## Channel name split / join

The inbound message handler decodes an external channel name with
`channel.split(prefix + ".")`, then `key.shift()`, then
`key.join(prefix + ".")`.  `splitFirst` finds the first occurrence of a
separator; `splitOnL` is JS `String.prototype.split` for a non-empty
separator; `joinSep` is `Array.prototype.join`. -/

/-- Locate the first occurrence of `sep` in `s`: returns the part before the
occurrence and the part after it. -/
def splitFirst (sep : Str) : Str → Option (Str × Str)
  | [] => if sep.isEmpty then some ([], []) else none
  | c :: cs =>
    if sep.isPrefixOf (c :: cs) then some ([], (c :: cs).drop sep.length)
    else
      match splitFirst sep cs with
      | none => none
      | some (b, a) => some (c :: b, a)

theorem splitFirst_eq_append {sep : Str} :
    ∀ {s b a : Str}, splitFirst sep s = some (b, a) → s = b ++ sep ++ a := by
  intro s
  induction s with
  | nil =>
    intro b a h
    simp only [splitFirst] at h
    split at h
    · rename_i hsep
      simp only [Option.some.injEq, Prod.mk.injEq] at h
      obtain ⟨hb, ha⟩ := h
      subst hb; subst ha
      have : sep = [] := by simpa [List.isEmpty_iff] using hsep
      simp [this]
    · simp at h
  | cons c cs ih =>
    intro b a h
    by_cases hp : sep.isPrefixOf (c :: cs)
    · simp only [splitFirst, if_pos hp] at h
      injection h with h'
      obtain ⟨hb, ha⟩ := Prod.mk.inj h'
      subst hb; subst ha
      have hpre : sep <+: (c :: cs) := List.isPrefixOf_iff_prefix.mp hp
      obtain ⟨t, ht⟩ := hpre
      conv_lhs => rw [← ht]
      rw [← ht, List.drop_left]
      simp
    · simp only [splitFirst, if_neg hp] at h
      cases hrec : splitFirst sep cs with
      | none => rw [hrec] at h; exact absurd h (by simp)
      | some p =>
        obtain ⟨b', a'⟩ := p
        rw [hrec] at h
        injection h with h'
        obtain ⟨hb, ha⟩ := Prod.mk.inj h'
        subst hb; subst ha
        have := ih hrec
        rw [this]
        simp

theorem splitFirst_length_lt {sep s b a : Str} (hsep : sep ≠ [])
    (h : splitFirst sep s = some (b, a)) : a.length < s.length := by
  have hs := splitFirst_eq_append h
  have hpos : 0 < sep.length := List.length_pos.mpr hsep
  rw [hs]
  simp only [List.length_append]
  omega

/-- JS `String.prototype.split` with separator `sep` (only ever used with the
non-empty separator `prefix + "."`; the `sep = []` guard is unreachable). -/
def splitOnL (sep : Str) (s : Str) : List Str :=
  if hsep : sep = [] then [s]
  else
    match hf : splitFirst sep s with
    | none => [s]
    | some (b, a) => b :: splitOnL sep a
termination_by s.length
decreasing_by exact splitFirst_length_lt hsep hf

/-- JS `Array.prototype.join` with separator `sep`. -/
def joinSep (sep : Str) : List Str → Str
  | [] => []
  | [x] => x
  | x :: y :: t => x ++ sep ++ joinSep sep (y :: t)

theorem joinSep_cons_of_ne_nil (sep x : Str) (l : List Str) (h : l ≠ []) :
    joinSep sep (x :: l) = x ++ sep ++ joinSep sep l := by
  cases l with
  | nil => exact absurd rfl h
  | cons y t => rfl

theorem splitOnL_ne_nil (sep s : Str) : splitOnL sep s ≠ [] := by
  unfold splitOnL
  split
  · simp
  · split <;> simp

theorem joinSep_splitOnL_aux (sep : Str) :
    ∀ n s, s.length ≤ n → joinSep sep (splitOnL sep s) = s := by
  intro n
  induction n with
  | zero =>
    intro s hs
    have hnil : s = [] := List.eq_nil_of_length_eq_zero (Nat.le_zero.mp hs)
    subst hnil
    unfold splitOnL
    split
    · rfl
    · split
      · rfl
      · rename_i hsep b a hf
        exfalso
        have := splitFirst_eq_append hf
        simp at this
        exact hsep this.2.1
  | succ n ih =>
    intro s hs
    unfold splitOnL
    split
    · rfl
    · rename_i hsep
      split
      · rfl
      · rename_i b a hf
        have ha := splitFirst_length_lt hsep hf
        have hrec := ih a (by omega)
        rw [joinSep_cons_of_ne_nil _ _ _ (splitOnL_ne_nil sep a), hrec]
        exact (splitFirst_eq_append hf).symm

theorem joinSep_splitOnL (sep s : Str) : joinSep sep (splitOnL sep s) = s :=
  joinSep_splitOnL_aux sep s.length s (Nat.le_refl _)

theorem splitFirst_append_self {sep : Str} (e : Str) (hsep : sep ≠ []) :
    splitFirst sep (sep ++ e) = some ([], e) := by
  cases sep with
  | nil => exact absurd rfl hsep
  | cons c cs =>
    show splitFirst (c :: cs) (c :: (cs ++ e)) = some ([], e)
    have hp : (c :: cs).isPrefixOf (c :: (cs ++ e)) := by
      rw [List.isPrefixOf_iff_prefix]
      exact ⟨e, by simp⟩
    simp only [splitFirst, if_pos hp]
    have : (c :: (cs ++ e)).drop (c :: cs).length = e := by
      have := List.drop_left (c :: cs) e
      simpa using this
    rw [this]

theorem splitOnL_append_sep (sep e : Str) (hsep : sep ≠ []) :
    splitOnL sep (sep ++ e) = [] :: splitOnL sep e := by
  have hf := splitFirst_append_self e hsep
  rw [splitOnL.eq_def]
  split
  · rename_i h; exact absurd h hsep
  · split
    · rename_i h; rw [hf] at h; exact absurd h (by simp)
    · rename_i b a h
      rw [hf] at h
      injection h with h'
      obtain ⟨hb, ha⟩ := Prod.mk.inj h'
      subst hb; subst ha
      rfl

/-! ## Channel namespacing -/

/-- The separator string `prefix + "."` used by the inbound handler. -/
def chanSep (pfx : Str) : Str := pfx ++ ['.']

/-- External channel / key name: the source template
`${this.__prefix}.${key}` (string interpolation of the configured prefix, a
dot and the local name). -/
def extName (pfx e : Str) : Str := pfx ++ '.' :: e

theorem extName_eq_sep_append (pfx e : Str) : extName pfx e = chanSep pfx ++ e := by
  simp [extName, chanSep]

/-- Inbound handler channel decode (the `sub` client message listener):
`const key = channel.split(prefix + "."); key.shift();
key.join(prefix + ".")`. -/
def toLocal (pfx channel : Str) : Str :=
  joinSep (chanSep pfx) ((splitOnL (chanSep pfx) channel).tail)

theorem chanSep_ne_nil (pfx : Str) : chanSep pfx ≠ [] := by
  simp [chanSep]

/-- C3: for every prefix p and every event name e, decoding the external
channel name p ++ "." ++ e by the inbound handler's split-shift-rejoin
strategy yields exactly e, including when e itself contains the substring
p ++ "." (embedded delimiters are preserved by rejoining). -/
theorem toLocal_extName (pfx e : Str) : toLocal pfx (extName pfx e) = e := by
  rw [extName_eq_sep_append, toLocal, splitOnL_append_sep _ _ (chanSep_ne_nil pfx)]
  simpa using joinSep_splitOnL (chanSep pfx) e

/-! ## JSON wire codec

Modelled from the spec: the message wire format is "a JSON array of the
positional arguments passed to emit" and cache values are "JSON-encoded";
the JSON.stringify / JSON.parse builtins are external collaborators.  The
model covers the JSON fragment null / booleans / integer-valued numbers /
strings without escape sequences / arrays. -/

inductive Json where
  | null : Json
  | bool (b : Bool) : Json
  | num (n : Int) : Json
  | str (s : Str) : Json
  | arr (elems : List Json) : Json

/-- Decimal digits of a positive number, most significant first; the fuel is
only there to make the recursion structural and any fuel at least n is
enough. -/
def natDigitsAux : Nat → Nat → Str
  | 0, _ => []
  | fuel+1, n =>
    if n = 0 then []
    else natDigitsAux fuel (n / 10) ++ [Char.ofNat (48 + n % 10)]

/-- Decimal representation of a natural number. -/
def natDigits (n : Nat) : Str :=
  if n = 0 then ['0'] else natDigitsAux (n + 1) n

/-- JSON.stringify of an integer-valued number. -/
def intStr : Int → Str
  | .ofNat n => natDigits n
  | .negSucc m => '-' :: natDigits (m + 1)

mutual

/-- JSON.stringify of a value of the modelled fragment. -/
def jsonStr : Json → Str
  | .null => "null".toList
  | .bool true => "true".toList
  | .bool false => "false".toList
  | .num i => intStr i
  | .str s => '"' :: s ++ ['"']
  | .arr es => '[' :: jsonStrElems es ++ [']']

/-- JSON.stringify of the comma-separated element list of an array. -/
def jsonStrElems : List Json → Str
  | [] => []
  | [j] => jsonStr j
  | j :: j2 :: t => jsonStr j ++ ',' :: jsonStrElems (j2 :: t)

end

/-- The payload published by emit: args serialized as a JSON array. -/
def stringifyArgs (args : List Json) : Str := jsonStr (.arr args)

/-- Numeric value of an accumulator extended by a list of decimal digits. -/
def digitsVal : Nat → Str → Nat
  | acc, [] => acc
  | acc, c :: cs => digitsVal (acc * 10 + (c.toNat - 48)) cs

/-- Parse a maximal run of leading decimal digits. -/
def parseNat (s : Str) : Option (Nat × Str) :=
  let ds := s.takeWhile Char.isDigit
  if ds.isEmpty then none
  else some (digitsVal 0 ds, s.dropWhile Char.isDigit)

mutual

/-- JSON.parse (modelled): parse one value of the fragment off the front of
the input.  The fuel makes the recursion structural; any fuel at least the
input length plus one is enough. -/
def parseVal : Nat → Str → Option (Json × Str)
  | 0, _ => none
  | fuel+1, s =>
    match s with
    | [] => none
    | c :: r =>
      if c = 'n' then
        if r.take 3 = ['u', 'l', 'l'] then some (.null, r.drop 3) else none
      else if c = 't' then
        if r.take 3 = ['r', 'u', 'e'] then some (.bool true, r.drop 3) else none
      else if c = 'f' then
        if r.take 4 = ['a', 'l', 's', 'e'] then some (.bool false, r.drop 4) else none
      else if c = '"' then
        match r.dropWhile (fun x => x != '"') with
        | '"' :: r2 => some (.str (r.takeWhile (fun x => x != '"')), r2)
        | _ => none
      else if c = '-' then
        match parseNat r with
        | some (n, r2) => some (.num (-(n : Int)), r2)
        | none => none
      else if c = '[' then
        match r with
        | ']' :: r2 => some (.arr [], r2)
        | _ =>
          match parseElems fuel r with
          | some (es, r2) => some (.arr es, r2)
          | none => none
      else
        match parseNat (c :: r) with
        | some (n, r2) => some (.num (n : Int), r2)
        | none => none

/-- Parse the non-empty element list of an array, up to and including the
closing bracket. -/
def parseElems : Nat → Str → Option (List Json × Str)
  | 0, _ => none
  | fuel+1, s =>
    match parseVal fuel s with
    | none => none
    | some (j, r) =>
      match r with
      | ']' :: r2 => some ([j], r2)
      | ',' :: r2 =>
        match parseElems fuel r2 with
        | some (es, r3) => some (j :: es, r3)
        | none => none
      | _ => none

end

/-- JSON.parse of a whole string: the entire input must be consumed. -/
def jsonParse (s : Str) : Option Json :=
  match parseVal (s.length + 1) s with
  | some (j, []) => some j
  | _ => none

/-! ## Event router

The in-process listener registry is the Node events.EventEmitter held in
this.__events; the subscribe-mode redis client's subscription set is
modelled as a list of channel names.  A listener is either a callback
registered by on (identified by a number) or the self-removing closure a
call to once creates around a callback (the closure's identity is a fresh
wrapper id). -/

inductive Listener where
  | plain (fn : Nat)
  | onceWrap (wid fn : Nat)
deriving DecidableEq

/-- The user callback a registered listener invokes. -/
def Listener.fnOf : Listener → Nat
  | .plain fn => fn
  | .onceWrap _ fn => fn

/-- Commands issued to the redis clients. -/
inductive Cmd where
  | subscribe (channel : Str)
  | unsubscribe (channel : Str)
  | publish (channel payload : Str)
deriving DecidableEq

structure EvState where
  listeners : List (Str × List Listener)
  subs : List Str
deriving DecidableEq

/-- Listener list registered for an event (empty when none). -/
def assocGet (m : List (Str × List Listener)) (e : Str) : List Listener :=
  match m with
  | [] => []
  | (k, v) :: t => if k = e then v else assocGet t e

/-- Store a listener list for an event, creating the entry if needed. -/
def assocSet (m : List (Str × List Listener)) (e : Str) (v : List Listener) :
    List (Str × List Listener) :=
  match m with
  | [] => [(e, v)]
  | (k, w) :: t => if k = e then (e, v) :: t else (k, w) :: assocSet t e v

/-- Rewrite an existing entry; an absent event is left untouched (Node's
removeListener returns early when no listener array exists). -/
def assocUpdate (m : List (Str × List Listener)) (e : Str)
    (f : List Listener → List Listener) : List (Str × List Listener) :=
  match m with
  | [] => []
  | (k, v) :: t => if k = e then (k, f v) :: t else (k, v) :: assocUpdate t e f

/-- Remove the first occurrence of a listener. -/
def removeFirstL : List Listener → Listener → List Listener
  | [], _ => []
  | y :: t, x => if y = x then t else y :: removeFirstL t x

/-- Node EventEmitter.removeListener removes at most one instance: the most
recently added matching listener. -/
def removeLastL (l : List Listener) (x : Listener) : List Listener :=
  (removeFirstL l.reverse x).reverse

/-- The redis client's subscription set gains a channel at most once. -/
def subAdd (subs : List Str) (ch : Str) : List Str :=
  if ch ∈ subs then subs else ch :: subs

/-- this.__events.listenerCount(key). -/
def countL (st : EvState) (e : Str) : Nat := (assocGet st.listeners e).length

/-- RedisPubsub.on: register the callback (Node on appends, FIFO), then
subscribe the namespaced channel exactly when the listener count is 1. -/
def onReg (pfx : Str) (st : EvState) (e : Str) (l : Listener) : EvState × List Cmd :=
  if countL { st with listeners := assocSet st.listeners e (assocGet st.listeners e ++ [l]) } e = 1 then
    ({ listeners := assocSet st.listeners e (assocGet st.listeners e ++ [l]),
       subs := subAdd st.subs (extName pfx e) },
     [.subscribe (extName pfx e)])
  else
    ({ st with listeners := assocSet st.listeners e (assocGet st.listeners e ++ [l]) }, [])

/-- RedisPubsub.off: removeListener, then unsubscribe the namespaced channel
when no listeners are left (listenerCount falsy). -/
def off (pfx : Str) (st : EvState) (e : Str) (l : Listener) : EvState × List Cmd :=
  if countL { st with listeners := assocUpdate st.listeners e (fun v => removeLastL v l) } e = 0 then
    ({ listeners := assocUpdate st.listeners e (fun v => removeLastL v l),
       subs := st.subs.filter (fun c => c != extName pfx e) },
     [.unsubscribe (extName pfx e)])
  else
    ({ st with listeners := assocUpdate st.listeners e (fun v => removeLastL v l) }, [])

/-- RedisPubsub.once: build a fresh self-removing closure around the callback
and register it through on.  wid is the closure's identity. -/
def once (pfx : Str) (st : EvState) (e : Str) (wid fn : Nat) : EvState × List Cmd :=
  onReg pfx st e (.onceWrap wid fn)

/-- An invocation of a user callback with its positional arguments. -/
abbrev Call := Nat × List Json

/-- Invoke one registered listener: a plain callback just runs; a once
wrapper first deregisters itself through off, then runs its callback. -/
def runListener (pfx : Str) (st : EvState) (e : Str) (args : List Json) :
    Listener → EvState × List Cmd × List Call
  | .plain fn => (st, [], [(fn, args)])
  | .onceWrap wid fn =>
    let p := off pfx st e (.onceWrap wid fn)
    (p.1, p.2, [(fn, args)])

/-- Invoke a snapshot of listeners in order, threading registry mutations. -/
def dispatchList (pfx : Str) (st : EvState) (e : Str) (args : List Json) :
    List Listener → EvState × List Cmd × List Call
  | [] => (st, [], [])
  | l :: rest =>
    let p := runListener pfx st e args l
    let q := dispatchList pfx p.1 e args rest
    (q.1, p.2.1 ++ q.2.1, p.2.2 ++ q.2.2)

/-- this.__events.emit(key, ...args): Node emit iterates over a copy of the
current listener array, so a listener removed during dispatch still runs in
this round but not in later ones. -/
def dispatch (pfx : Str) (st : EvState) (e : Str) (args : List Json) :
    EvState × List Cmd × List Call :=
  dispatchList pfx st e args (assocGet st.listeners e)

/-- RedisPubsub.emit: publish the JSON array of args to the namespaced
channel; no registry change and no direct local invocation. -/
def emitRun (pfx : Str) (st : EvState) (e : Str) (args : List Json) :
    EvState × List Cmd × List Call :=
  (st, [.publish (extName pfx e) (stringifyArgs args)], [])

/-- The sub client's message handler: decode the channel back to the local
event name, JSON.parse the body and re-emit locally with the array elements
spread.  A parse failure throws (none); spreading a parsed non-array value
also throws and is not modelled further. -/
def onMessage (pfx : Str) (st : EvState) (channel data : Str) :
    Option (EvState × List Cmd × List Call) :=
  match jsonParse data with
  | some (.arr args) => some (dispatch pfx st (toLocal pfx channel) args)
  | _ => none

/-- The subscription / listener-count invariant: a namespaced channel is
subscribed exactly when its event has at least one listener. -/
def SubInv (pfx : Str) (st : EvState) : Prop :=
  ∀ e, extName pfx e ∈ st.subs ↔ 0 < countL st e

/-- How many times a given callback occurs in an invocation list. -/
def countCalls (fn : Nat) (calls : List Call) : Nat :=
  (calls.filter (fun c => c.1 == fn)).length

/-! ### Registry lemmas -/

theorem assocGet_set_self (m : List (Str × List Listener)) (e : Str) (v : List Listener) :
    assocGet (assocSet m e v) e = v := by
  induction m with
  | nil => simp [assocSet, assocGet]
  | cons p t ih =>
    obtain ⟨k, w⟩ := p
    by_cases hk : k = e
    · simp [assocSet, assocGet, hk]
    · simp [assocSet, assocGet, hk, ih]

theorem assocGet_set_ne (m : List (Str × List Listener)) (e e' : Str) (v : List Listener)
    (h : e' ≠ e) : assocGet (assocSet m e v) e' = assocGet m e' := by
  induction m with
  | nil =>
    simp only [assocSet, assocGet]
    rw [if_neg (fun hh => h hh.symm)]
  | cons p t ih =>
    obtain ⟨k, w⟩ := p
    by_cases hk : k = e
    · subst hk
      simp only [assocSet, if_pos rfl, assocGet]
      rw [if_neg (fun hh => h hh.symm), if_neg (fun hh => h hh.symm)]
    · simp only [assocSet, if_neg hk, assocGet]
      by_cases hk' : k = e'
      · rw [if_pos hk', if_pos hk']
      · rw [if_neg hk', if_neg hk', ih]

theorem assocGet_update_self (m : List (Str × List Listener)) (e : Str)
    (f : List Listener → List Listener) (hf : f [] = []) :
    assocGet (assocUpdate m e f) e = f (assocGet m e) := by
  induction m with
  | nil => simp [assocUpdate, assocGet, hf]
  | cons p t ih =>
    obtain ⟨k, w⟩ := p
    by_cases hk : k = e
    · simp [assocUpdate, assocGet, hk]
    · simp [assocUpdate, assocGet, hk, ih]

theorem assocGet_update_ne (m : List (Str × List Listener)) (e e' : Str)
    (f : List Listener → List Listener) (h : e' ≠ e) :
    assocGet (assocUpdate m e f) e' = assocGet m e' := by
  induction m with
  | nil => simp [assocUpdate]
  | cons p t ih =>
    obtain ⟨k, w⟩ := p
    by_cases hk : k = e
    · subst hk
      simp only [assocUpdate, if_pos rfl, assocGet]
      rw [if_neg (fun hh => h hh.symm), if_neg (fun hh => h hh.symm)]
    · simp only [assocUpdate, if_neg hk, assocGet]
      by_cases hk' : k = e'
      · rw [if_pos hk', if_pos hk']
      · rw [if_neg hk', if_neg hk', ih]

theorem assocUpdate_congr_id (m : List (Str × List Listener)) (e : Str)
    (f : List Listener → List Listener) (h : f (assocGet m e) = assocGet m e) :
    assocUpdate m e f = m := by
  induction m with
  | nil => rfl
  | cons p t ih =>
    obtain ⟨k, w⟩ := p
    by_cases hk : k = e
    · subst hk
      have hg : assocGet ((k, w) :: t) k = w := by simp [assocGet]
      rw [hg] at h
      simp [assocUpdate, h]
    · simp only [assocGet, if_neg hk] at h
      simp [assocUpdate, hk, ih h]

theorem removeFirstL_of_not_mem (l : List Listener) (x : Listener) (h : x ∉ l) :
    removeFirstL l x = l := by
  induction l with
  | nil => rfl
  | cons y t ih =>
    simp only [List.mem_cons, not_or] at h
    unfold removeFirstL
    rw [if_neg (fun hh => h.1 hh.symm), ih h.2]

theorem removeLastL_nil (x : Listener) : removeLastL [] x = [] := rfl

theorem removeLastL_of_not_mem (l : List Listener) (x : Listener) (h : x ∉ l) :
    removeLastL l x = l := by
  unfold removeLastL
  rw [removeFirstL_of_not_mem _ _ (by simpa using h), List.reverse_reverse]

theorem length_removeFirstL_of_mem {l : List Listener} {x : Listener} (h : x ∈ l) :
    (removeFirstL l x).length + 1 = l.length := by
  induction l with
  | nil => cases h
  | cons y t ih =>
    by_cases hy : y = x
    · unfold removeFirstL
      rw [if_pos hy]
      simp
    · have ht : x ∈ t := by
        rcases List.mem_cons.mp h with h1 | h1
        · exact absurd h1.symm hy
        · exact h1
      unfold removeFirstL
      rw [if_neg hy]
      have := ih ht
      simp only [List.length_cons]
      omega

theorem length_removeLastL_of_mem {l : List Listener} {x : Listener} (h : x ∈ l) :
    (removeLastL l x).length + 1 = l.length := by
  unfold removeLastL
  rw [List.length_reverse]
  have := length_removeFirstL_of_mem (l := l.reverse) (x := x) (by simpa using h)
  simpa using this

theorem length_removeLastL_le (l : List Listener) (x : Listener) :
    (removeLastL l x).length ≤ l.length := by
  by_cases h : x ∈ l
  · have := length_removeLastL_of_mem h
    omega
  · rw [removeLastL_of_not_mem _ _ h]

theorem extName_inj {pfx e1 e2 : Str} (h : extName pfx e1 = extName pfx e2) : e1 = e2 := by
  unfold extName at h
  have := List.append_cancel_left h
  exact (List.cons.injEq .. ▸ this).2

theorem mem_subAdd (subs : List Str) (ch a : Str) :
    a ∈ subAdd subs ch ↔ a ∈ subs ∨ a = ch := by
  unfold subAdd
  split
  · rename_i h
    constructor
    · exact Or.inl
    · rintro (h1 | rfl) <;> [exact h1; exact h]
  · simp [or_comm]

theorem mem_filter_ne (subs : List Str) (ch a : Str) :
    (a ∈ subs.filter (fun c => c != ch)) ↔ a ∈ subs ∧ a ≠ ch := by
  simp [List.mem_filter]

/-- Both branches of on leave the same listener registry. -/
theorem onReg_listeners (pfx : Str) (st : EvState) (e : Str) (l : Listener) :
    (onReg pfx st e l).1.listeners =
      assocSet st.listeners e (assocGet st.listeners e ++ [l]) := by
  unfold onReg
  split <;> rfl

theorem countL_onReg_self (pfx : Str) (st : EvState) (e : Str) (l : Listener) :
    countL (onReg pfx st e l).1 e = countL st e + 1 := by
  simp [countL, onReg_listeners, assocGet_set_self]

theorem countL_onReg_ne (pfx : Str) (st : EvState) (e e' : Str) (l : Listener)
    (h : e' ≠ e) : countL (onReg pfx st e l).1 e' = countL st e' := by
  simp [countL, onReg_listeners, assocGet_set_ne _ _ _ _ h]

theorem countL_grow (st : EvState) (e : Str) (l : Listener) :
    countL { st with listeners := assocSet st.listeners e (assocGet st.listeners e ++ [l]) } e
      = countL st e + 1 := by
  simp [countL, assocGet_set_self]

theorem onReg_cmds (pfx : Str) (st : EvState) (e : Str) (l : Listener) :
    (onReg pfx st e l).2 =
      if countL st e = 0 then [Cmd.subscribe (extName pfx e)] else [] := by
  unfold onReg
  rw [countL_grow]
  by_cases h : countL st e = 0
  · rw [if_pos (by omega), if_pos h]
  · rw [if_neg (by omega), if_neg h]

theorem onReg_subs (pfx : Str) (st : EvState) (e : Str) (l : Listener) :
    (onReg pfx st e l).1.subs =
      if countL st e = 0 then subAdd st.subs (extName pfx e) else st.subs := by
  unfold onReg
  rw [countL_grow]
  by_cases h : countL st e = 0
  · rw [if_pos (by omega), if_pos h]
  · rw [if_neg (by omega), if_neg h]

/-- Both branches of off leave the same listener registry. -/
theorem off_listeners (pfx : Str) (st : EvState) (e : Str) (l : Listener) :
    (off pfx st e l).1.listeners =
      assocUpdate st.listeners e (fun v => removeLastL v l) := by
  unfold off
  split <;> rfl

theorem countL_shrink (st : EvState) (e : Str) (l : Listener) :
    countL { st with listeners := assocUpdate st.listeners e (fun v => removeLastL v l) } e
      = (removeLastL (assocGet st.listeners e) l).length := by
  simp only [countL]
  rw [assocGet_update_self st.listeners e (fun v => removeLastL v l) (removeLastL_nil l)]

theorem countL_off_self (pfx : Str) (st : EvState) (e : Str) (l : Listener) :
    countL (off pfx st e l).1 e = (removeLastL (assocGet st.listeners e) l).length := by
  simp only [countL, off_listeners]
  rw [assocGet_update_self st.listeners e (fun v => removeLastL v l) (removeLastL_nil l)]

theorem countL_off_ne (pfx : Str) (st : EvState) (e e' : Str) (l : Listener)
    (h : e' ≠ e) : countL (off pfx st e l).1 e' = countL st e' := by
  simp only [countL, off_listeners]
  rw [assocGet_update_ne _ _ _ _ h]

theorem off_cmds (pfx : Str) (st : EvState) (e : Str) (l : Listener) :
    (off pfx st e l).2 =
      if (removeLastL (assocGet st.listeners e) l).length = 0 then
        [Cmd.unsubscribe (extName pfx e)]
      else [] := by
  unfold off
  rw [countL_shrink]
  by_cases h : (removeLastL (assocGet st.listeners e) l).length = 0
  · rw [if_pos h, if_pos h]
  · rw [if_neg h, if_neg h]

theorem off_subs (pfx : Str) (st : EvState) (e : Str) (l : Listener) :
    (off pfx st e l).1.subs =
      if (removeLastL (assocGet st.listeners e) l).length = 0 then
        st.subs.filter (fun c => c != extName pfx e)
      else st.subs := by
  unfold off
  rw [countL_shrink]
  by_cases h : (removeLastL (assocGet st.listeners e) l).length = 0
  · rw [if_pos h, if_pos h]
  · rw [if_neg h, if_neg h]

theorem SubInv_onReg (pfx : Str) (st : EvState) (e : Str) (l : Listener)
    (hinv : SubInv pfx st) : SubInv pfx (onReg pfx st e l).1 := by
  intro e'
  by_cases he : e' = e
  · subst he
    rw [onReg_subs, countL_onReg_self]
    constructor
    · intro _; omega
    · intro _
      by_cases h0 : countL st e' = 0
      · rw [if_pos h0, mem_subAdd]
        exact Or.inr rfl
      · rw [if_neg h0]
        exact (hinv e').mpr (by omega)
  · rw [onReg_subs, countL_onReg_ne _ _ _ _ _ he]
    have hne : extName pfx e' ≠ extName pfx e := fun hh => he (extName_inj hh)
    by_cases h0 : countL st e = 0
    · rw [if_pos h0, mem_subAdd]
      constructor
      · rintro (h1 | h1)
        · exact (hinv e').mp h1
        · exact absurd h1 hne
      · intro h1
        exact Or.inl ((hinv e').mpr h1)
    · rw [if_neg h0]
      exact hinv e'

theorem SubInv_off (pfx : Str) (st : EvState) (e : Str) (l : Listener)
    (hinv : SubInv pfx st) : SubInv pfx (off pfx st e l).1 := by
  intro e'
  by_cases he : e' = e
  · subst he
    rw [off_subs, countL_off_self]
    by_cases h0 : (removeLastL (assocGet st.listeners e') l).length = 0
    · rw [if_pos h0, mem_filter_ne]
      simp [h0]
    · rw [if_neg h0]
      have h1 : 0 < (removeLastL (assocGet st.listeners e') l).length :=
        Nat.pos_of_ne_zero h0
      have h2 : 0 < countL st e' := by
        have := length_removeLastL_le (assocGet st.listeners e') l
        simp only [countL]
        omega
      constructor
      · intro _; exact h1
      · intro _; exact (hinv e').mpr h2
  · rw [off_subs, countL_off_ne _ _ _ _ _ he]
    have hne : extName pfx e' ≠ extName pfx e := fun hh => he (extName_inj hh)
    by_cases h0 : (removeLastL (assocGet st.listeners e) l).length = 0
    · rw [if_pos h0, mem_filter_ne]
      constructor
      · rintro ⟨h1, _⟩
        exact (hinv e').mp h1
      · intro h1
        exact ⟨(hinv e').mpr h1, hne⟩
    · rw [if_neg h0]
      exact hinv e'

/-- C4 counterexample: calling off with a callback that was never registered,
on an event with no listeners, is not a no-op — the code still issues an
external unsubscribe command for the namespaced channel. -/
theorem off_unregistered_issues_unsubscribe :
    (Listener.plain 0 ∉ assocGet (EvState.mk [] []).listeners ['e']) ∧
    (off ['p'] (EvState.mk [] []) ['e'] (Listener.plain 0)).2 =
      [Cmd.unsubscribe ['p', '.', 'e']] := by
  constructor
  · simp [assocGet]
  · rfl

/-- C4 (amended): starting from any state satisfying the subscription /
listener-count invariant, on and off preserve the invariant; on issues the
external subscribe exactly when the listener count goes from 0 to 1; off
issues the external unsubscribe exactly when the post-removal listener count
is 0 (hence also, redundantly, when an unregistered callback is removed from
an event that already has no listeners); off with a callback that is not
currently registered leaves the listener registry unchanged and, when at
least one listener remains, issues no command. -/
theorem subscription_refcount_invariant (pfx : Str) (st : EvState) (e : Str)
    (l : Listener) (hinv : SubInv pfx st) :
    SubInv pfx (onReg pfx st e l).1 ∧
    ((onReg pfx st e l).2 = [Cmd.subscribe (extName pfx e)] ↔ countL st e = 0) ∧
    ((onReg pfx st e l).2 = [] ↔ 0 < countL st e) ∧
    SubInv pfx (off pfx st e l).1 ∧
    ((off pfx st e l).2 = [Cmd.unsubscribe (extName pfx e)] ↔
      countL (off pfx st e l).1 e = 0) ∧
    ((off pfx st e l).2 = [] ↔ 0 < countL (off pfx st e l).1 e) ∧
    (l ∉ assocGet st.listeners e →
      (off pfx st e l).1.listeners = st.listeners ∧
      (0 < countL st e → (off pfx st e l).2 = [])) := by
  have hrm0 : ∀ h : l ∉ assocGet st.listeners e,
      removeLastL (assocGet st.listeners e) l = assocGet st.listeners e :=
    fun h => removeLastL_of_not_mem _ _ h
  refine ⟨SubInv_onReg pfx st e l hinv, ?_, ?_, SubInv_off pfx st e l hinv, ?_, ?_, ?_⟩
  · rw [onReg_cmds]
    by_cases h0 : countL st e = 0
    · simp [h0]
    · simp [h0]
  · rw [onReg_cmds]
    by_cases h0 : countL st e = 0
    · simp [h0]
    · simp [h0]
      omega
  · rw [off_cmds, countL_off_self]
    by_cases h0 : (removeLastL (assocGet st.listeners e) l).length = 0
    · simp [h0]
    · simp [h0]
  · rw [off_cmds, countL_off_self]
    by_cases h0 : (removeLastL (assocGet st.listeners e) l).length = 0
    · simp [h0]
    · simp [h0]
      omega
  · intro h
    constructor
    · rw [off_listeners]
      exact assocUpdate_congr_id _ _ _ (by rw [hrm0 h])
    · intro hpos
      rw [off_cmds, hrm0 h, if_neg (by simp only [countL] at hpos; omega)]

/-- Closed witness for the amended C4 theorem at a concrete state. -/
theorem subscription_refcount_invariant_witness :
    SubInv ['p'] (EvState.mk [] []) ∧
    ((onReg ['p'] (EvState.mk [] []) ['e'] (Listener.plain 3)).2 =
        [Cmd.subscribe (extName ['p'] ['e'])] ↔
      countL (EvState.mk [] []) ['e'] = 0) := by
  have hinv : SubInv ['p'] (EvState.mk [] []) := by
    intro e
    simp [countL, assocGet]
  exact ⟨hinv,
    (subscription_refcount_invariant ['p'] (EvState.mk [] []) ['e']
      (Listener.plain 3) hinv).2.1⟩

/-! ### Dispatch -/

theorem dispatch_eq (pfx : Str) (st : EvState) (e : Str) (args : List Json) :
    dispatch pfx st e args = dispatchList pfx st e args (assocGet st.listeners e) := rfl

/-- The invocation list of a dispatch is the snapshot of listeners, in
registration order, each applied to the same positional arguments. -/
theorem dispatchList_calls (pfx : Str) (e : Str) (args : List Json) :
    ∀ (snap : List Listener) (st : EvState),
      (dispatchList pfx st e args snap).2.2 = snap.map (fun l => (l.fnOf, args)) := by
  intro snap
  induction snap with
  | nil => intro st; rfl
  | cons l rest ih =>
    intro st
    cases l with
    | plain fn => simp [dispatchList, runListener, Listener.fnOf, ih]
    | onceWrap wid fn => simp [dispatchList, runListener, Listener.fnOf, ih]

/-- C6: emit publishes exactly the JSON serialization of args as an array to
the namespaced channel, touching neither the registry nor any local
listener; and a message whose body parses as a JSON array, arriving on the
external channel of event e, is dispatched to all currently registered
listeners of e with the array elements as positional arguments, in
registration order. -/
theorem emit_publish_and_inbound_dispatch (pfx : Str) (st : EvState) (e : Str)
    (args : List Json) (data : Str) (hdata : jsonParse data = some (.arr args)) :
    emitRun pfx st e args = (st, [Cmd.publish (extName pfx e) (stringifyArgs args)], []) ∧
    onMessage pfx st (extName pfx e) data = some (dispatch pfx st e args) ∧
    (dispatch pfx st e args).2.2 =
      (assocGet st.listeners e).map (fun l => (l.fnOf, args)) := by
  refine ⟨rfl, ?_, dispatchList_calls pfx e args _ st⟩
  unfold onMessage
  rw [hdata, toLocal_extName]

/-- Closed witness for the C6 theorem: a concrete state with two plain
listeners on event e, receiving the serialization of [5]. -/
theorem emit_publish_and_inbound_dispatch_witness :
    jsonParse (stringifyArgs [Json.num 5]) = some (.arr [Json.num 5]) ∧
    (onMessage ['p'] (EvState.mk [(['e'], [Listener.plain 7, Listener.plain 8])] [])
        (extName ['p'] ['e']) (stringifyArgs [Json.num 5]) =
      some (dispatch ['p'] (EvState.mk [(['e'], [Listener.plain 7, Listener.plain 8])] [])
        ['e'] [Json.num 5]) ∧
    (dispatch ['p'] (EvState.mk [(['e'], [Listener.plain 7, Listener.plain 8])] [])
        ['e'] [Json.num 5]).2.2 = [(7, [Json.num 5]), (8, [Json.num 5])]) := by
  have hdata : jsonParse (stringifyArgs [Json.num 5]) = some (.arr [Json.num 5]) := rfl
  refine ⟨hdata, ?_⟩
  have h := emit_publish_and_inbound_dispatch ['p']
    (EvState.mk [(['e'], [Listener.plain 7, Listener.plain 8])] []) ['e']
    [Json.num 5] (stringifyArgs [Json.num 5]) hdata
  refine ⟨h.2.1, ?_⟩
  rw [h.2.2]
  simp [assocGet, Listener.fnOf]

/-- C8: a single once registration fires its callback at most once — two
deliveries produce exactly one invocation — and two simultaneous once
registrations of the same callback each deregister only their own wrapper:
one delivery fires the callback once per registration, a second delivery
fires nothing. -/
theorem once_fires_at_most_once (pfx e : Str) (cb w1 w2 : Nat)
    (args1 args2 : List Json) (hw : w1 ≠ w2) :
    (countCalls cb (dispatch pfx (once pfx (EvState.mk [] []) e w1 cb).1 e args1).2.2 = 1 ∧
     countCalls cb (dispatch pfx
        (dispatch pfx (once pfx (EvState.mk [] []) e w1 cb).1 e args1).1 e args2).2.2 = 0) ∧
    (countCalls cb (dispatch pfx
        (once pfx (once pfx (EvState.mk [] []) e w1 cb).1 e w2 cb).1 e args1).2.2 = 2 ∧
     countCalls cb (dispatch pfx (dispatch pfx
        (once pfx (once pfx (EvState.mk [] []) e w1 cb).1 e w2 cb).1 e args1).1
        e args2).2.2 = 0) := by
  have hne : Listener.onceWrap w2 cb ≠ Listener.onceWrap w1 cb := by
    simp [hw, Ne.symm hw]
  -- single registration
  have hl1 : (once pfx (EvState.mk [] []) e w1 cb).1.listeners =
      [(e, [Listener.onceWrap w1 cb])] := by
    simp [once, onReg_listeners, assocGet, assocSet]
  constructor
  · have hd1 : (dispatch pfx (once pfx (EvState.mk [] []) e w1 cb).1 e args1).1.listeners =
        [(e, ([] : List Listener))] := by
      rw [dispatch_eq, hl1]
      simp [assocGet, dispatchList, runListener, off_listeners, hl1, assocUpdate,
        removeLastL, removeFirstL]
    constructor
    · rw [dispatch_eq, hl1]
      simp [assocGet, dispatchList, runListener, countCalls]
    · rw [dispatch_eq, hd1]
      simp [assocGet, dispatchList, countCalls]
  · have hl2 : (once pfx (once pfx (EvState.mk [] []) e w1 cb).1 e w2 cb).1.listeners =
        [(e, [Listener.onceWrap w1 cb, Listener.onceWrap w2 cb])] := by
      simp [once, onReg_listeners, hl1, assocGet, assocSet]
    have hd2 : (dispatch pfx
        (once pfx (once pfx (EvState.mk [] []) e w1 cb).1 e w2 cb).1 e args1).1.listeners =
        [(e, ([] : List Listener))] := by
      rw [dispatch_eq, hl2]
      simp [assocGet, dispatchList, runListener, off_listeners, hl2, assocUpdate,
        removeLastL, removeFirstL, hne]
    constructor
    · rw [dispatch_eq, hl2]
      simp only [assocGet, if_pos rfl]
      simp [dispatchList, runListener, off_listeners, assocUpdate, removeLastL,
        removeFirstL, hne, assocGet, countCalls]
    · rw [dispatch_eq, hd2]
      simp [assocGet, dispatchList, countCalls]

/-- Closed witness for the C8 theorem at concrete wrapper identities. -/
theorem once_fires_at_most_once_witness :
    (1 : Nat) ≠ 2 ∧
    countCalls 9 (dispatch ['p'] (once ['p'] (EvState.mk [] []) ['e'] 1 9).1
      ['e'] [Json.null]).2.2 = 1 := by
  refine ⟨by decide, ?_⟩
  exact (once_fires_at_most_once ['p'] ['e'] 9 1 2 [Json.null] [] (by decide)).1.1

/-! ## Cache facade

The cache redis client is modelled as a key-value store plus injectable
store faults: keysFail makes the KEYS enumeration report an error, and
getFail / setFail / delFail list the external keys whose GET / SET / DEL
report one. -/

/-- Settlement of a JS promise. -/
inductive POut (α : Type) where
  | resolved (v : α)
  | rejected (e : Str)

structure CacheSt where
  kv : List (Str × Str)
  keysFail : Bool
  getFail : List Str
  setFail : List Str
  delFail : List Str
deriving DecidableEq

def kvLookup : List (Str × Str) → Str → Option Str
  | [], _ => none
  | (k, v) :: t, key => if k = key then some v else kvLookup t key

def kvSet : List (Str × Str) → Str → Str → List (Str × Str)
  | [], key, v => [(key, v)]
  | (k, w) :: t, key, v => if k = key then (key, v) :: t else (k, w) :: kvSet t key v

def kvRemove (m : List (Str × Str)) (key : Str) : List (Str × Str) :=
  m.filter (fun p => p.1 != key)

/-- Redis KEYS-style glob matching, modelled from the spec's ENUMERATE
(pattern) store primitive (fragment: * and ?; character classes and escapes
are not modelled).  Fuel keeps the recursion structural; any fuel above
pattern length plus string length is enough. -/
def globGo : Nat → Str → Str → Bool
  | 0, _, _ => false
  | fuel+1, p, s =>
    match p with
    | [] => s.isEmpty
    | c :: ps =>
      if c = '*' then
        globGo fuel ps s ||
          (match s with
           | [] => false
           | _ :: s2 => globGo fuel (c :: ps) s2)
      else
        match s with
        | [] => false
        | d :: s2 => (c == '?' || c == d) && globGo fuel ps s2

def globMatch (p s : Str) : Bool := globGo (p.length + s.length + 1) p s

/-- The keys the cache client's KEYS command returns for a pattern. -/
def enumKeys (st : CacheSt) (pattern : Str) : List Str :=
  (st.kv.map Prod.fst).filter (fun k => globMatch pattern k)

/-- One DEL command: an errored deletion leaves the store unchanged. -/
def redisDel (st : CacheSt) (k : Str) : CacheSt × Except Str Nat :=
  if k ∈ st.delFail then (st, .error ("delete failed".toList))
  else ({ st with kv := kvRemove st.kv k },
        .ok (if (kvLookup st.kv k).isSome then 1 else 0))

/-- The Promise.all over the per-key deletions: every deletion runs (the
promises are all created before the await), and the flag records whether any
of them rejected. -/
def delAll (st : CacheSt) : List Str → CacheSt × Bool
  | [] => (st, false)
  | k :: t =>
    ((delAll (redisDel st k).1 t).1,
     (match (redisDel st k).2 with | .error _ => true | .ok _ => false)
       || (delAll (redisDel st k).1 t).2)

/-- RedisPubsub.del: enumerate the keys matching the namespaced pattern
(rejecting on an enumeration error), delete them all and wait (rejecting if
any deletion failed), then issue one final DEL of the literal pattern string
as passed by the caller — without the prefix. -/
def del (pfx : Str) (st : CacheSt) (key : Str) : CacheSt × Except Str Nat :=
  if st.keysFail then (st, .error ("enumeration failed".toList))
  else if (delAll st (enumKeys st (extName pfx key))).2 then
    ((delAll st (enumKeys st (extName pfx key))).1, .error ("delete failed".toList))
  else redisDel (delAll st (enumKeys st (extName pfx key))).1 key

/-- JSON.parse applied to the raw redis reply: a missing reply is the JS
null value, which JSON.parse coerces to the string "null" and decodes to
the null value. -/
def jsParseReply (d : Option Str) : Option Json :=
  match d with
  | none => some .null
  | some s => jsonParse s

/-- RedisPubsub.get: fetch the namespaced key and resolve with the decoded
value; the callback's error argument is ignored (an errored reply carries no
payload and is modelled as an absent one).  A JSON.parse throw inside the
store callback leaves the promise unsettled (none). -/
def get (pfx : Str) (st : CacheSt) (key : Str) : Option (POut Json) :=
  match jsParseReply
      (if extName pfx key ∈ st.getFail then none
       else kvLookup st.kv (extName pfx key)) with
  | some v => some (.resolved v)
  | none => none

/-- RedisPubsub.set: store the JSON encoding under the namespaced key.  The
promise's resolve function is passed as the store callback, so the promise
resolves with the callback's first argument: the error value (null on
success, the error object on failure). -/
def set (pfx : Str) (st : CacheSt) (key : Str) (v : Json) :
    CacheSt × POut (Option Str) :=
  if extName pfx key ∈ st.setFail then (st, .resolved (some ("set failed".toList)))
  else ({ st with kv := kvSet st.kv (extName pfx key) (jsonStr v) }, .resolved none)

/-! ### Cache lemmas -/

theorem redisDel_delFail (st : CacheSt) (k : Str) :
    (redisDel st k).1.delFail = st.delFail := by
  unfold redisDel
  split <;> rfl

theorem delAll_delFail (ks : List Str) : ∀ st : CacheSt,
    (delAll st ks).1.delFail = st.delFail := by
  induction ks with
  | nil => intro st; rfl
  | cons k t ih =>
    intro st
    unfold delAll
    rw [ih, redisDel_delFail]

theorem delAll_flag (ks : List Str) : ∀ st : CacheSt,
    (delAll st ks).2 = true ↔ ∃ k ∈ ks, k ∈ st.delFail := by
  induction ks with
  | nil => intro st; simp [delAll]
  | cons k t ih =>
    intro st
    unfold delAll
    by_cases hk : k ∈ st.delFail
    · simp [redisDel, hk]
    · rw [redisDel]
      rw [if_neg hk]
      simp only [Bool.false_or]
      rw [ih]
      constructor
      · rintro ⟨k', hk', hf⟩
        exact ⟨k', List.mem_cons_of_mem _ hk', hf⟩
      · rintro ⟨k', hk', hf⟩
        rcases List.mem_cons.mp hk' with rfl | h'
        · exact absurd hf hk
        · exact ⟨k', h', hf⟩

theorem delAll_kv_no_fail (ks : List Str) : ∀ st : CacheSt,
    (∀ k ∈ ks, k ∉ st.delFail) →
    (delAll st ks).1.kv = ks.foldl kvRemove st.kv := by
  induction ks with
  | nil => intro st _; rfl
  | cons k t ih =>
    intro st hok
    unfold delAll
    rw [redisDel, if_neg (hok k (List.mem_cons_self k t))]
    exact ih _ (fun k' hk' => hok k' (List.mem_cons_of_mem _ hk'))

theorem kvLookup_remove_self (m : List (Str × Str)) (k : Str) :
    kvLookup (kvRemove m k) k = none := by
  induction m with
  | nil => rfl
  | cons p t ih =>
    obtain ⟨k', v⟩ := p
    by_cases hk : k' = k
    · simpa [kvRemove, hk] using ih
    · simpa [kvRemove, kvLookup, hk] using ih

theorem kvLookup_remove_none (m : List (Str × Str)) (j k : Str)
    (h : kvLookup m k = none) : kvLookup (kvRemove m j) k = none := by
  induction m with
  | nil => rfl
  | cons p t ih =>
    obtain ⟨k', v⟩ := p
    simp only [kvLookup] at h
    by_cases hk : k' = k
    · rw [if_pos hk] at h
      cases h
    · rw [if_neg hk] at h
      by_cases hj : k' = j
      · simpa [kvRemove, hj] using ih h
      · simpa [kvRemove, kvLookup, hj, hk] using ih h

theorem redisDel_kv_none (st : CacheSt) (j k : Str)
    (h : kvLookup st.kv k = none) : kvLookup (redisDel st j).1.kv k = none := by
  unfold redisDel
  split
  · exact h
  · exact kvLookup_remove_none _ _ _ h

theorem delAll_kv_none (ks : List Str) : ∀ (st : CacheSt) (k : Str),
    kvLookup st.kv k = none → kvLookup (delAll st ks).1.kv k = none := by
  induction ks with
  | nil => intro st k h; exact h
  | cons j t ih =>
    intro st k h
    unfold delAll
    exact ih _ _ (redisDel_kv_none st j k h)

theorem delAll_deletes (ks : List Str) : ∀ (st : CacheSt) (k : Str),
    k ∈ ks → k ∉ st.delFail → kvLookup (delAll st ks).1.kv k = none := by
  induction ks with
  | nil => intro st k h; cases h
  | cons j t ih =>
    intro st k hmem hok
    unfold delAll
    rcases List.mem_cons.mp hmem with rfl | hmem'
    · apply delAll_kv_none
      unfold redisDel
      rw [if_neg hok]
      exact kvLookup_remove_self st.kv k
    · by_cases hk : k ∈ (redisDel st j).1.delFail
      · rw [redisDel_delFail] at hk
        exact absurd hk hok
      · exact ih _ _ hmem' (by rwa [redisDel_delFail])

/-- C9: get on a key never set (the store returns an absent value for the
namespaced key) resolves with the null value rather than rejecting or
throwing; get on a present key resolves with the JSON-decoded stored
value. -/
theorem get_absent_null_present_decoded (pfx : Str) (st : CacheSt) (key : Str)
    (hok : extName pfx key ∉ st.getFail) :
    (kvLookup st.kv (extName pfx key) = none →
      get pfx st key = some (.resolved .null)) ∧
    (∀ d v, kvLookup st.kv (extName pfx key) = some d → jsonParse d = some v →
      get pfx st key = some (.resolved v)) := by
  constructor
  · intro h
    unfold get
    rw [if_neg hok, h]
    rfl
  · intro d v hd hv
    unfold get
    rw [if_neg hok, hd]
    simp [jsParseReply, hv]

/-- Closed witness for the C9 theorem: a store holding only "p.k" = "5". -/
theorem get_absent_null_present_decoded_witness :
    (extName ['p'] ['a'] ∉ (CacheSt.mk [(['p', '.', 'k'], ['5'])] false [] [] []).getFail) ∧
    kvLookup (CacheSt.mk [(['p', '.', 'k'], ['5'])] false [] [] []).kv
      (extName ['p'] ['a']) = none ∧
    get ['p'] (CacheSt.mk [(['p', '.', 'k'], ['5'])] false [] [] []) ['a'] =
      some (.resolved .null) ∧
    get ['p'] (CacheSt.mk [(['p', '.', 'k'], ['5'])] false [] [] []) ['k'] =
      some (.resolved (.num 5)) := by
  refine ⟨by simp, rfl, ?_, ?_⟩
  · exact (get_absent_null_present_decoded ['p'] _ ['a'] (by simp)).1 rfl
  · exact (get_absent_null_present_decoded ['p'] _ ['k'] (by simp)).2 ['5'] (.num 5) rfl rfl

/-- C10: the promises returned by get and set never reject, even on a store
error: get ignores the callback's error argument, so on an errored GET it
resolves with null, indistinguishable from a missing key; set passes the
promise's resolve as the store callback, so it resolves with the error value
itself as its fulfillment value — null on success, the error object on
failure — instead of surfacing a rejection. -/
theorem get_set_never_reject (pfx : Str) (st : CacheSt) (key : Str) (v : Json) :
    (∀ r, get pfx st key = some r → ∃ w, r = .resolved w) ∧
    (extName pfx key ∈ st.getFail → get pfx st key = some (.resolved .null)) ∧
    (∃ w, (set pfx st key v).2 = .resolved w) ∧
    (extName pfx key ∈ st.setFail →
      (set pfx st key v).2 = .resolved (some ("set failed".toList)) ∧
      (set pfx st key v).1 = st) ∧
    (extName pfx key ∉ st.setFail → (set pfx st key v).2 = .resolved none) := by
  refine ⟨?_, ?_, ?_, ?_, ?_⟩
  · intro r hr
    unfold get at hr
    split at hr
    · rename_i w hw
      injection hr with hr'
      exact ⟨w, hr'.symm⟩
    · cases hr
  · intro h
    unfold get
    rw [if_pos h]
    rfl
  · unfold set
    split
    · exact ⟨some ("set failed".toList), rfl⟩
    · exact ⟨none, rfl⟩
  · intro h
    unfold set
    rw [if_pos h]
    exact ⟨rfl, rfl⟩
  · intro h
    unfold set
    rw [if_neg h]

/-- Closed witness for the C10 theorem: GET and SET both erroring on the
namespaced key "p.k". -/
theorem get_set_never_reject_witness :
    (extName ['p'] ['k'] ∈
      (CacheSt.mk [] false [['p', '.', 'k']] [['p', '.', 'k']] []).getFail) ∧
    get ['p'] (CacheSt.mk [] false [['p', '.', 'k']] [['p', '.', 'k']] []) ['k'] =
      some (.resolved .null) ∧
    (set ['p'] (CacheSt.mk [] false [['p', '.', 'k']] [['p', '.', 'k']] []) ['k']
        (Json.num 1)).2 = .resolved (some ("set failed".toList)) := by
  have h := get_set_never_reject ['p']
    (CacheSt.mk [] false [['p', '.', 'k']] [['p', '.', 'k']] []) ['k'] (Json.num 1)
  exact ⟨by decide, h.2.1 (by decide), (h.2.2.2.1 (by decide)).1⟩

/-- C7: del first enumerates the keys matching the namespaced pattern, then
deletes every enumerated key and waits for all the deletions, then issues one
final deletion of the literal pattern string as passed; an enumeration error
rejects with the store untouched; a failed deletion rejects, and the
deletions that succeeded are not rolled back. -/
theorem del_enumerate_deleteall_literal (pfx : Str) (st : CacheSt) (key : Str) :
    (st.keysFail = false →
      (∀ k ∈ enumKeys st (extName pfx key), k ∉ st.delFail) → key ∉ st.delFail →
      del pfx st key =
        ({ st with
            kv := kvRemove ((enumKeys st (extName pfx key)).foldl kvRemove st.kv) key },
         .ok (if (kvLookup ((enumKeys st (extName pfx key)).foldl kvRemove st.kv) key).isSome
              then 1 else 0))) ∧
    (st.keysFail = true → del pfx st key = (st, .error ("enumeration failed".toList))) ∧
    (st.keysFail = false → (∃ k ∈ enumKeys st (extName pfx key), k ∈ st.delFail) →
      (∃ err, (del pfx st key).2 = .error err) ∧
      (∀ k ∈ enumKeys st (extName pfx key), k ∉ st.delFail →
        kvLookup (del pfx st key).1.kv k = none)) := by
  refine ⟨?_, ?_, ?_⟩
  · intro hkeys hok hkey
    unfold del
    rw [if_neg (by simp [hkeys])]
    have hflag : (delAll st (enumKeys st (extName pfx key))).2 = false := by
      rw [Bool.eq_false_iff]
      intro hc
      obtain ⟨k, hk, hf⟩ := (delAll_flag _ st).mp hc
      exact hok k hk hf
    rw [hflag]
    simp only [Bool.false_eq_true, if_false]
    have hkv := delAll_kv_no_fail (enumKeys st (extName pfx key)) st hok
    have hdf := delAll_delFail (enumKeys st (extName pfx key)) st
    unfold redisDel
    rw [if_neg (by rw [hdf]; exact hkey), hkv]
    have hrest : (delAll st (enumKeys st (extName pfx key))).1 =
        { st with kv := (enumKeys st (extName pfx key)).foldl kvRemove st.kv } := by
      have hkf : ∀ ks (s : CacheSt), (delAll s ks).1.keysFail = s.keysFail := by
        intro ks
        induction ks with
        | nil => intro s; rfl
        | cons k t ih =>
          intro s
          unfold delAll
          rw [ih]
          unfold redisDel
          split <;> rfl
      have hgf : ∀ ks (s : CacheSt), (delAll s ks).1.getFail = s.getFail := by
        intro ks
        induction ks with
        | nil => intro s; rfl
        | cons k t ih =>
          intro s
          unfold delAll
          rw [ih]
          unfold redisDel
          split <;> rfl
      have hsf : ∀ ks (s : CacheSt), (delAll s ks).1.setFail = s.setFail := by
        intro ks
        induction ks with
        | nil => intro s; rfl
        | cons k t ih =>
          intro s
          unfold delAll
          rw [ih]
          unfold redisDel
          split <;> rfl
      cases hda : (delAll st (enumKeys st (extName pfx key))).1 with
      | mk kv1 kf1 gf1 sf1 df1 =>
        have h1 := hkv; rw [hda] at h1
        have h2 := hdf; rw [hda] at h2
        have h3 := hkf (enumKeys st (extName pfx key)) st; rw [hda] at h3
        have h4 := hgf (enumKeys st (extName pfx key)) st; rw [hda] at h4
        have h5 := hsf (enumKeys st (extName pfx key)) st; rw [hda] at h5
        simp only at h1 h2 h3 h4 h5
        simp [h1, h2, h3, h4, h5, hkeys]
    rw [hrest]
  · intro hkeys
    unfold del
    rw [if_pos hkeys]
  · intro hkeys hbad
    have hflag : (delAll st (enumKeys st (extName pfx key))).2 = true :=
      (delAll_flag _ st).mpr hbad
    unfold del
    rw [if_neg (by simp [hkeys]), hflag]
    simp only [if_true]
    refine ⟨⟨"delete failed".toList, rfl⟩, ?_⟩
    intro k hk hok
    exact delAll_deletes _ st k hk hok

/-- Closed witness for the C7 theorem: the store holds "p.a" and "p.b", the
DEL of "p.a" errors, and del "*" enumerates both, rejects, and still leaves
"p.b" deleted. -/
theorem del_enumerate_deleteall_literal_witness :
    ((CacheSt.mk [(['p', '.', 'a'], ['1']), (['p', '.', 'b'], ['2'])] false [] []
        [['p', '.', 'a']]).keysFail = false) ∧
    (∃ k ∈ enumKeys (CacheSt.mk [(['p', '.', 'a'], ['1']), (['p', '.', 'b'], ['2'])]
        false [] [] [['p', '.', 'a']]) (extName ['p'] ['*']),
      k ∈ (CacheSt.mk [(['p', '.', 'a'], ['1']), (['p', '.', 'b'], ['2'])] false [] []
        [['p', '.', 'a']]).delFail) ∧
    (∃ err, (del ['p'] (CacheSt.mk [(['p', '.', 'a'], ['1']), (['p', '.', 'b'], ['2'])]
        false [] [] [['p', '.', 'a']]) ['*']).2 = .error err) ∧
    kvLookup (del ['p'] (CacheSt.mk [(['p', '.', 'a'], ['1']), (['p', '.', 'b'], ['2'])]
        false [] [] [['p', '.', 'a']]) ['*']).1.kv ['p', '.', 'b'] = none := by
  have hbad : ∃ k ∈ enumKeys (CacheSt.mk [(['p', '.', 'a'], ['1']), (['p', '.', 'b'], ['2'])]
      false [] [] [['p', '.', 'a']]) (extName ['p'] ['*']),
      k ∈ (CacheSt.mk [(['p', '.', 'a'], ['1']), (['p', '.', 'b'], ['2'])] false [] []
        [['p', '.', 'a']]).delFail := by
    refine ⟨['p', '.', 'a'], ?_, by simp⟩
    decide
  have h := (del_enumerate_deleteall_literal ['p']
    (CacheSt.mk [(['p', '.', 'a'], ['1']), (['p', '.', 'b'], ['2'])] false [] []
      [['p', '.', 'a']]) ['*']).2.2 rfl hbad
  refine ⟨rfl, hbad, h.1, ?_⟩
  refine h.2 ['p', '.', 'b'] (by decide) (by decide)

/-- C5: evaluation at the failing input.  With prefix "eden" and a store
holding the raw key "foo" (outside the namespace, e.g. another application's
key) next to the external key "eden.foo", del("foo") deletes both: the final
literal deletion targets the pattern string as passed, without the prefix,
so a key outside the configured namespace is removed. -/
theorem del_deletes_outside_namespace :
    (kvLookup (CacheSt.mk [("foo".toList, ['1']), ("eden.foo".toList, ['2'])]
        false [] [] []).kv ("foo".toList) = some ['1']) ∧
    ¬ ("eden.".toList).isPrefixOf ("foo".toList) = true ∧
    (del ("eden".toList) (CacheSt.mk [("foo".toList, ['1']), ("eden.foo".toList, ['2'])]
        false [] [] []) ("foo".toList)).1.kv = [] := by
  refine ⟨rfl, by decide, ?_⟩
  decide

/-! ## Lock manager

The lock redis client: a key-value store whose entries carry the stored
payload (the JS number written) and the absolute expiry time enforced by the
PX option; now is the current Date.now() in milliseconds. -/

structure LockSt where
  kv : List (Str × (Nat × Nat))
deriving DecidableEq

/-- The external lock key: the source template prefix.lock.key. -/
def lockKey (pfx k : Str) : Str := pfx ++ '.' :: 'l' :: 'o' :: 'c' :: 'k' :: '.' :: k

def kvRemoveL (m : List (Str × (Nat × Nat))) (key : Str) : List (Str × (Nat × Nat)) :=
  m.filter (fun p => p.1 != key)

def kvLookupL : List (Str × (Nat × Nat)) → Str → Option (Nat × Nat)
  | [], _ => none
  | (k, v) :: t, key => if k = key then some v else kvLookupL t key

/-- The live entry under a key: an entry whose PX expiry has passed is gone
(store-enforced TTL eviction). -/
def liveEntry (st : LockSt) (now : Nat) (key : Str) : Option (Nat × Nat) :=
  match kvLookupL st.kv key with
  | none => none
  | some (v, exp) => if now < exp then some (v, exp) else none

/-- Redis SET key value PX ttl NX: succeeds only when no live entry exists;
on success it stores the payload with expiry now + ttl and replies OK
(some), otherwise it replies null (none). -/
def setPxNx (st : LockSt) (now : Nat) (key : Str) (v ttl : Nat) :
    LockSt × Option Unit :=
  if (liveEntry st now key).isSome then (st, none)
  else (⟨(key, (v, now + ttl)) :: kvRemoveL st.kv key⟩, some ())

/-- One acquisition attempt of RedisPubsub.lock: write now + timeout + 1
under the namespaced lock key with SET .. PX timeout NX.  On success the
promise resolves with the release capability, identified here by the lock
key its invocation deletes; on a null reply the callback retries instead. -/
def lockAttempt (pfx : Str) (st : LockSt) (now : Nat) (k : Str) (timeout : Nat) :
    LockSt × Option Str :=
  ((setPxNx st now (lockKey pfx k) (now + timeout + 1) timeout).1,
   if (setPxNx st now (lockKey pfx k) (now + timeout + 1) timeout).2.isSome
   then some (lockKey pfx k) else none)

/-- The release capability resolved by lock: delete the lock key and resolve
once the deletion is acknowledged. -/
def release (st : LockSt) (capKey : Str) : LockSt := ⟨kvRemoveL st.kv capKey⟩

/-- RedisPubsub.unlock: unconditionally delete the namespaced lock key. -/
def unlock (pfx : Str) (st : LockSt) (k : Str) : LockSt :=
  release st (lockKey pfx k)

theorem kvLookupL_remove_self (m : List (Str × (Nat × Nat))) (k : Str) :
    kvLookupL (kvRemoveL m k) k = none := by
  induction m with
  | nil => rfl
  | cons p t ih =>
    obtain ⟨k', v⟩ := p
    by_cases hk : k' = k
    · simpa [kvRemoveL, hk] using ih
    · simpa [kvRemoveL, kvLookupL, hk] using ih

/-- C1: lock's acquisition is a single atomic set-if-absent write of the key
prefix ++ ".lock." ++ k, with store-enforced TTL equal to timeout
milliseconds (expiry now + timeout) and stored payload now + timeout + 1;
when the key is absent the write succeeds and the attempt resolves with a
release capability whose invocation deletes that lock key; when a live
record exists nothing is written and the attempt does not resolve. -/
theorem lock_nx_write_and_release (pfx : Str) (st : LockSt) (now : Nat)
    (k : Str) (timeout : Nat) :
    (liveEntry st now (lockKey pfx k) = none →
      lockAttempt pfx st now k timeout =
        (⟨(lockKey pfx k, (now + timeout + 1, now + timeout)) ::
            kvRemoveL st.kv (lockKey pfx k)⟩, some (lockKey pfx k)) ∧
      kvLookupL (release (lockAttempt pfx st now k timeout).1 (lockKey pfx k)).kv
        (lockKey pfx k) = none) ∧
    ((liveEntry st now (lockKey pfx k)).isSome = true →
      lockAttempt pfx st now k timeout = (st, none)) := by
  constructor
  · intro habs
    have hcond : (liveEntry st now (lockKey pfx k)).isSome = false := by
      rw [habs]; rfl
    constructor
    · unfold lockAttempt setPxNx
      rw [hcond]
      simp
    · unfold release lockAttempt setPxNx
      rw [hcond]
      simp only [Bool.false_eq_true, if_false]
      exact kvLookupL_remove_self _ _
  · intro hlive
    unfold lockAttempt setPxNx
    rw [hlive]
    simp

/-- Closed witness for the C1 theorem: an empty lock store at time 100 with
timeout 5000. -/
theorem lock_nx_write_and_release_witness :
    liveEntry (LockSt.mk []) 100 (lockKey ['p'] ['k']) = none ∧
    lockAttempt ['p'] (LockSt.mk []) 100 ['k'] 5000 =
      (⟨[(lockKey ['p'] ['k'], (5101, 5100))]⟩, some (lockKey ['p'] ['k'])) := by
  refine ⟨rfl, ?_⟩
  exact ((lock_nx_write_and_release ['p'] (LockSt.mk []) 100 ['k'] 5000).1 rfl).1

/-- Outcome of one conditional write as seen by the lock callback. -/
inductive AttemptOut where
  | err      : AttemptOut
  | taken    : AttemptOut
  | ok       : AttemptOut
deriving DecidableEq

/-- The callback's retry condition, if (err || result === null): a store
error and an already-existing record are treated identically. -/
def AttemptOut.isFail : AttemptOut → Bool
  | .err => true
  | .taken => true
  | .ok => false

/-- Classification of a callback invocation (err, result) into an outcome;
isFail of the classification is exactly err || result === null. -/
def classify (err : Bool) (result : Option Unit) : AttemptOut :=
  if err then .err
  else match result with
    | none => .taken
    | some _ => .ok

/-- The lock call run against a schedule of attempt outcomes: each failed
attempt waits 50 ms (setTimeout) and retries, the retry's resolution being
forwarded unchanged to the original promise (then(resolve)).  The result is
none while no attempt has succeeded — the promise is still pending — and
otherwise the total wait in milliseconds paired with the settlement. -/
def lockRun : List AttemptOut → Option (Nat × POut Unit)
  | [] => none
  | a :: rest =>
    if a.isFail then
      match lockRun rest with
      | none => none
      | some (d, r) => some (d + 50, r)
    else some (0, .resolved ())

theorem lockRun_never_rejects :
    ∀ (sched : List AttemptOut) (d : Nat) (r : POut Unit),
      lockRun sched = some (d, r) → r = .resolved () := by
  intro sched
  induction sched with
  | nil => intro d r h; cases h
  | cons a t ih =>
    intro d r h
    unfold lockRun at h
    by_cases ha : a.isFail = true
    · rw [if_pos ha] at h
      split at h
      · cases h
      · rename_i d' r' hrec
        injection h with h'
        obtain ⟨h1, h2⟩ := Prod.mk.inj h'
        rw [← h2]
        exact ih d' r' hrec
    · rw [if_neg ha] at h
      injection h with h'
      exact (Prod.mk.inj h').2.symm

theorem lockRun_all_fail_pending :
    ∀ (sched : List AttemptOut), (∀ a ∈ sched, a.isFail = true) →
      lockRun sched = none := by
  intro sched
  induction sched with
  | nil => intro _; rfl
  | cons a t ih =>
    intro hfail
    unfold lockRun
    rw [if_pos (hfail a (List.mem_cons_self a t)), ih (fun a' ha' =>
      hfail a' (List.mem_cons_of_mem _ ha'))]

/-- C2: whenever the conditional write fails — because the record already
exists or because the store reported an error — lock waits 50 ms and
retries; while every attempt keeps failing the original promise stays
pending (indefinite retry, no rejection); when an attempt succeeds, every
retry's resolution funnels into the single original promise, which resolves
exactly once, after 50 ms per failed attempt, with a success: the promise
returned by lock never rejects. -/
theorem lock_retries_until_acquired (sched rest : List AttemptOut)
    (hfail : ∀ a ∈ sched, a.isFail = true) :
    lockRun (sched ++ .ok :: rest) = some (50 * sched.length, .resolved ()) ∧
    lockRun sched = none ∧
    (∀ (sched2 : List AttemptOut) (d : Nat) (r : POut Unit),
      lockRun sched2 = some (d, r) → r = .resolved ()) ∧
    (∀ (err : Bool) (result : Option Unit),
      (classify err result).isFail = (err || result.isNone)) := by
  refine ⟨?_, lockRun_all_fail_pending sched hfail, lockRun_never_rejects, ?_⟩
  · induction sched with
    | nil => rfl
    | cons a t ih =>
      have ht : ∀ a' ∈ t, a'.isFail = true :=
        fun a' ha' => hfail a' (List.mem_cons_of_mem _ ha')
      have hrec := ih ht
      show lockRun (a :: (t ++ .ok :: rest)) = _
      unfold lockRun
      rw [if_pos (hfail a (List.mem_cons_self a t)), hrec]
      have : 50 * (a :: t).length = 50 * t.length + 50 := by
        simp [List.length_cons]
        ring
      rw [this]
  · intro err result
    unfold classify AttemptOut.isFail
    cases err with
    | true => rfl
    | false =>
      cases result with
      | none => rfl
      | some u => rfl

/-- Closed witness for the C2 theorem: two failed attempts (one store error,
one contention) followed by a successful one resolve after 100 ms. -/
theorem lock_retries_until_acquired_witness :
    (∀ a ∈ [AttemptOut.err, AttemptOut.taken], a.isFail = true) ∧
    lockRun [AttemptOut.err, AttemptOut.taken, AttemptOut.ok] =
      some (100, .resolved ()) := by
  refine ⟨by decide, ?_⟩
  exact (lock_retries_until_acquired [AttemptOut.err, AttemptOut.taken] []
    (by decide)).1

end PubsubRedis
